import Mathlib

/-!
Verification of the token-boundary scanner (`first_word` in
`src/slice_type.rs`) of the rust-ownership repository.

A text buffer is modelled as a `List Nat` of byte values; the ASCII space
byte is 32 (0x20).  The Rust function

    fn first_word(s: &String) -> &str {
        let bytes = s.as_bytes();
        for (i, &item) in bytes.iter().enumerate() {
            if item == b' ' {
                return &s[0..i];
            }
        }
        &s[..]
    }

is embedded as `first_word` below: the for-loop over `bytes.iter().enumerate()`
becomes the recursion `firstWordLoop`, which carries the whole buffer `s`
and the current index `i` while walking the remaining bytes; the slice
`&s[0..i]` becomes `s.take i` and `&s[..]` becomes `s`.

Three further embeddings of the same source function serve particular claims:
`first_word_view` returns the slice as an offset/length descriptor
(`TextView`), mirroring what a Rust `&str` fat pointer stores;
`first_word_checked` performs the string-slicing operations through
`sliceStr`, which models the panic conditions of Rust `&s[a..b]` on `str`
(out of bounds or not a char boundary) as `none`; and `first_word_cost`
counts the bytes the loop examines.
-/

/-- Space byte, `b' '` in the source. -/
def spaceByte : Nat := 32

/-- Loop body of `first_word`: walking the remaining bytes with current
index `i` over the original buffer `s`; on a space byte it returns
`&s[0..i]`, after the loop it returns `&s[..]`. -/
def firstWordLoop (s : List Nat) (i : Nat) : List Nat → List Nat
  | [] => s
  | item :: rest => if item = spaceByte then s.take i else firstWordLoop s (i + 1) rest

/-- Embedding of `first_word` from `src/slice_type.rs`, returning the
selected bytes. -/
def first_word (s : List Nat) : List Nat :=
  firstWordLoop s 0 s

/-- A borrowed view: start offset and length into some buffer
(what a Rust slice fat pointer stores, per the spec data model). -/
structure TextView where
  start : Nat
  len : Nat
deriving DecidableEq, Repr

/-- Read a view against a buffer: the bytes the view currently denotes. -/
def readView (s : List Nat) (v : TextView) : List Nat :=
  (s.drop v.start).take v.len

/-- Loop body of the view-returning embedding of `first_word`:
`&s[0..i]` is the view `⟨0, i⟩`, `&s[..]` is the view `⟨0, s.length⟩`. -/
def firstWordViewLoop (s : List Nat) (i : Nat) : List Nat → TextView
  | [] => ⟨0, s.length⟩
  | item :: rest => if item = spaceByte then ⟨0, i⟩ else firstWordViewLoop s (i + 1) rest

/-- Embedding of `first_word` returning the slice as an offset/length view. -/
def first_word_view (s : List Nat) : TextView :=
  firstWordViewLoop s 0 s

/-- Rust `str::is_char_boundary`: true at 0; otherwise true iff the byte at
`i` is not a UTF-8 continuation byte (`(b as i8) >= -0x40`), or `i` equals
the length when there is no byte at `i`. -/
def is_char_boundary (s : List Nat) (i : Nat) : Bool :=
  if i = 0 then true
  else
    match s.get? i with
    | none => i == s.length
    | some b => decide (b < 128) || decide (192 ≤ b)

/-- Rust string slicing `&s[a..b]`: yields the byte range when
`a ≤ b` and both ends are char boundaries, otherwise panics (`none`). -/
def sliceStr (s : List Nat) (a b : Nat) : Option (List Nat) :=
  if a ≤ b ∧ is_char_boundary s a = true ∧ is_char_boundary s b = true then
    some ((s.drop a).take (b - a))
  else
    none

/-- Loop body of the panic-aware embedding of `first_word`: every slicing
operation of the source goes through `sliceStr`. -/
def firstWordCheckedLoop (s : List Nat) (i : Nat) : List Nat → Option (List Nat)
  | [] => sliceStr s 0 s.length
  | item :: rest =>
    if item = spaceByte then sliceStr s 0 i else firstWordCheckedLoop s (i + 1) rest

/-- Embedding of `first_word` in which the slicings `&s[0..i]` and `&s[..]`
may panic (`none`) exactly when Rust string slicing would. -/
def first_word_checked (s : List Nat) : Option (List Nat) :=
  firstWordCheckedLoop s 0 s

/-- Embedding of the call `first_word(&s)` with the buffer state passed
explicitly: the function only reads through `&String`, so the buffer
component is returned unchanged. -/
def first_word_call (s : List Nat) : List Nat × List Nat :=
  (first_word s, s)

/-- Number of bytes the loop of `first_word` examines on buffer `s`:
one per iteration, stopping at the first space byte. -/
def first_word_cost : List Nat → Nat
  | [] => 0
  | item :: rest => if item = spaceByte then 1 else 1 + first_word_cost rest

/-- Index of the first space byte of a list, if any (specification-side
helper used to characterise the loops). -/
def spaceIdx : List Nat → Option Nat
  | [] => none
  | b :: rest => if b = spaceByte then some 0 else (spaceIdx rest).map Nat.succ

-- Characterisations of the loops ---------------------------------------------

theorem firstWordLoop_eq (s : List Nat) :
    ∀ (l : List Nat) (i : Nat),
      firstWordLoop s i l =
        (match spaceIdx l with
          | some j => s.take (i + j)
          | none => s) := by
  intro l
  induction l with
  | nil => intro i; rfl
  | cons b rest ih =>
    intro i
    by_cases hb : b = spaceByte
    · simp [firstWordLoop, spaceIdx, hb]
    · simp only [firstWordLoop, spaceIdx, hb, if_neg, ite_false, ih (i + 1)]
      cases h : spaceIdx rest with
      | none => simp
      | some j =>
        simp only [Option.map_some']
        have hij : i + 1 + j = i + (j + 1) := by omega
        rw [hij]

theorem first_word_eq (s : List Nat) :
    first_word s =
      (match spaceIdx s with
        | some j => s.take j
        | none => s) := by
  rw [first_word, firstWordLoop_eq s s 0]
  cases h : spaceIdx s with
  | none => rfl
  | some j => simp

theorem firstWordViewLoop_eq (s : List Nat) :
    ∀ (l : List Nat) (i : Nat),
      firstWordViewLoop s i l =
        (match spaceIdx l with
          | some j => (⟨0, i + j⟩ : TextView)
          | none => (⟨0, s.length⟩ : TextView)) := by
  intro l
  induction l with
  | nil => intro i; rfl
  | cons b rest ih =>
    intro i
    by_cases hb : b = spaceByte
    · simp [firstWordViewLoop, spaceIdx, hb]
    · simp only [firstWordViewLoop, spaceIdx, hb, if_neg, ite_false, ih (i + 1)]
      cases h : spaceIdx rest with
      | none => simp
      | some j =>
        simp only [Option.map_some']
        have hij : i + 1 + j = i + (j + 1) := by omega
        rw [hij]

theorem first_word_view_eq (s : List Nat) :
    first_word_view s =
      (match spaceIdx s with
        | some j => (⟨0, j⟩ : TextView)
        | none => (⟨0, s.length⟩ : TextView)) := by
  rw [first_word_view, firstWordViewLoop_eq s s 0]
  cases h : spaceIdx s with
  | none => rfl
  | some j => simp

-- Facts about spaceIdx --------------------------------------------------------

theorem spaceIdx_eq_none_iff (l : List Nat) :
    spaceIdx l = none ↔ spaceByte ∉ l := by
  induction l with
  | nil => simp [spaceIdx]
  | cons b rest ih =>
    by_cases hb : b = spaceByte
    · simp [spaceIdx, hb]
    · simp [spaceIdx, hb, ih, Ne.symm hb]

theorem spaceIdx_append (p t : List Nat) (hp : spaceByte ∉ p) :
    spaceIdx (p ++ spaceByte :: t) = some p.length := by
  induction p with
  | nil => simp [spaceIdx]
  | cons b rest ih =>
    have hb : b ≠ spaceByte := fun h => hp (h ▸ List.mem_cons_self b rest)
    have hrest : spaceByte ∉ rest := fun h => hp (List.mem_cons_of_mem b h)
    simp [spaceIdx, hb, ih hrest]

theorem spaceIdx_lt_length (l : List Nat) :
    ∀ j, spaceIdx l = some j → j < l.length := by
  induction l with
  | nil => intro j h; simp [spaceIdx] at h
  | cons b rest ih =>
    intro j h
    by_cases hb : b = spaceByte
    · simp [spaceIdx, hb] at h
      subst h
      simp
    · simp [spaceIdx, hb] at h
      obtain ⟨j', hj', rfl⟩ := h
      have := ih j' hj'
      simp only [List.length_cons]
      omega

theorem spaceIdx_get (l : List Nat) :
    ∀ j, spaceIdx l = some j → l.get? j = some spaceByte := by
  induction l with
  | nil => intro j h; simp [spaceIdx] at h
  | cons b rest ih =>
    intro j h
    by_cases hb : b = spaceByte
    · simp [spaceIdx, hb] at h
      subst h
      simp [hb]
    · simp [spaceIdx, hb] at h
      obtain ⟨j', hj', rfl⟩ := h
      simpa using ih j' hj'

theorem spaceIdx_take (l : List Nat) :
    ∀ j, spaceIdx l = some j → spaceByte ∉ l.take j := by
  induction l with
  | nil => intro j h; simp [spaceIdx] at h
  | cons b rest ih =>
    intro j h
    by_cases hb : b = spaceByte
    · simp [spaceIdx, hb] at h
      subst h
      simp
    · simp [spaceIdx, hb] at h
      obtain ⟨j', hj', rfl⟩ := h
      intro hmem
      rcases List.mem_cons.mp (by simpa [List.take] using hmem) with h1 | h2
      · exact hb h1.symm
      · exact ih j' hj' h2

-- Slicing success and checked-loop characterisation ---------------------------

theorem is_char_boundary_zero (s : List Nat) : is_char_boundary s 0 = true := by
  simp [is_char_boundary]

theorem sliceStr_zero_space (s : List Nat) (j : Nat) (hj : s.get? j = some spaceByte) :
    sliceStr s 0 j = some (s.take j) := by
  have hb : is_char_boundary s j = true := by
    by_cases h0 : j = 0
    · simp [is_char_boundary, h0]
    · simp only [List.get?_eq_getElem?] at hj
      simp [is_char_boundary, h0, hj, spaceByte]
  simp [sliceStr, hb, is_char_boundary_zero]

theorem sliceStr_full (s : List Nat) : sliceStr s 0 s.length = some s := by
  have hb : is_char_boundary s s.length = true := by
    by_cases h0 : s.length = 0
    · simp [is_char_boundary, h0]
    · have hnone : s.get? s.length = none := by
        simp [List.get?_eq_none]
      simp [is_char_boundary, h0, hnone]
  simp [sliceStr, hb, is_char_boundary_zero]

theorem firstWordCheckedLoop_eq (s : List Nat) :
    ∀ (l : List Nat) (i : Nat),
      firstWordCheckedLoop s i l =
        (match spaceIdx l with
          | some j => sliceStr s 0 (i + j)
          | none => sliceStr s 0 s.length) := by
  intro l
  induction l with
  | nil => intro i; rfl
  | cons b rest ih =>
    intro i
    by_cases hb : b = spaceByte
    · simp [firstWordCheckedLoop, spaceIdx, hb]
    · simp only [firstWordCheckedLoop, spaceIdx, hb, if_neg, ite_false, ih (i + 1)]
      cases h : spaceIdx rest with
      | none => simp
      | some j =>
        simp only [Option.map_some']
        have hij : i + 1 + j = i + (j + 1) := by omega
        rw [hij]

theorem first_word_checked_eq (s : List Nat) :
    first_word_checked s = some (first_word s) := by
  rw [first_word_checked, firstWordCheckedLoop_eq s s 0, first_word_eq]
  cases h : spaceIdx s with
  | none => exact sliceStr_full s
  | some j =>
    have hget := spaceIdx_get s j h
    simpa using sliceStr_zero_space s j hget

-- Shape of the result ---------------------------------------------------------

theorem first_word_length_le (s : List Nat) : (first_word s).length ≤ s.length := by
  rw [first_word_eq]
  cases h : spaceIdx s with
  | none => exact le_refl _
  | some j => simp

theorem first_word_no_space (s : List Nat) : spaceByte ∉ first_word s := by
  rw [first_word_eq]
  cases h : spaceIdx s with
  | none => exact (spaceIdx_eq_none_iff s).mp h
  | some j => exact spaceIdx_take s j h

theorem first_word_take (s : List Nat) :
    first_word s = s.take (first_word s).length := by
  rw [first_word_eq]
  cases h : spaceIdx s with
  | none => simp
  | some j =>
    have hj : j < s.length := spaceIdx_lt_length s j h
    simp [List.length_take, Nat.min_eq_left (le_of_lt hj)]

-- Concrete scenarios from the spec --------------------------------------------

theorem first_word_hello_world :
    first_word [104, 101, 108, 108, 111, 32, 119, 111, 114, 108, 100] =
      [104, 101, 108, 108, 111] := by decide

theorem first_word_hello :
    first_word [104, 101, 108, 108, 111] = [104, 101, 108, 108, 111] := by decide

theorem first_word_a_b_c :
    first_word [97, 32, 98, 32, 99] = [97] := by decide

-- Claims ----------------------------------------------------------------------

/-- Claim C1: for every buffer decomposing as `prefix ++ [0x20] ++ suffix`
with the prefix containing no space byte, `first_word` terminates at that
first space and returns exactly the prefix — the view `[0, prefix.length)`
of the original buffer, excluding the space and everything after it. -/
theorem claim_C1 (p t : List Nat) (hp : spaceByte ∉ p) :
    first_word (p ++ spaceByte :: t) = p ∧
    first_word_view (p ++ spaceByte :: t) = ⟨0, p.length⟩ := by
  have hidx := spaceIdx_append p t hp
  constructor
  · rw [first_word_eq, hidx]
    simp [List.take_left]
  · rw [first_word_view_eq, hidx]

/-- Witness for C1 on the buffer "he w" (prefix [104, 101], suffix [119]). -/
theorem claim_C1_witness :
    spaceByte ∉ [104, 101] ∧
    (first_word ([104, 101] ++ spaceByte :: [119]) = [104, 101] ∧
     first_word_view ([104, 101] ++ spaceByte :: [119]) = ⟨0, 2⟩) :=
  ⟨by decide, claim_C1 [104, 101] [119] (by decide)⟩

/-- Claim C2: for every buffer containing no space byte, `first_word`
returns the whole input — the view `[0, len)`. -/
theorem claim_C2 (s : List Nat) (hs : spaceByte ∉ s) :
    first_word s = s ∧ first_word_view s = ⟨0, s.length⟩ := by
  have hidx := (spaceIdx_eq_none_iff s).mpr hs
  constructor
  · rw [first_word_eq, hidx]
  · rw [first_word_view_eq, hidx]

/-- Witness for C2 on the buffer "hi". -/
theorem claim_C2_witness :
    spaceByte ∉ [104, 105] ∧
    (first_word [104, 105] = [104, 105] ∧ first_word_view [104, 105] = ⟨0, 2⟩) :=
  ⟨by decide, claim_C2 [104, 105] (by decide)⟩

/-- Claim C3: `first_word` is total — even with the panic conditions of
Rust string slicing modelled explicitly it succeeds on every byte
sequence — and on the empty input it returns an empty view. -/
theorem claim_C3 :
    (∀ s : List Nat, (first_word_checked s).isSome = true) ∧
    first_word ([] : List Nat) = [] ∧
    first_word_view ([] : List Nat) = ⟨0, 0⟩ := by
  refine ⟨fun s => ?_, rfl, rfl⟩
  rw [first_word_checked_eq]
  rfl

/-- Claim C4: the returned view never extends past the bounds of the input
view — its length is at most the input's length, it is a prefix of the
input's bytes, its offsets `[0, len)` lie inside the input — and it never
includes the triggering delimiter byte (no space byte occurs in it at all). -/
theorem claim_C4 (s : List Nat) :
    (first_word s).length ≤ s.length ∧
    first_word s = s.take (first_word s).length ∧
    spaceByte ∉ first_word s ∧
    (first_word_view s).start = 0 ∧
    (first_word_view s).start + (first_word_view s).len ≤ s.length := by
  refine ⟨first_word_length_le s, first_word_take s, first_word_no_space s, ?_, ?_⟩
  · rw [first_word_view_eq]
    cases h : spaceIdx s with
    | none => rfl
    | some j => rfl
  · rw [first_word_view_eq]
    cases h : spaceIdx s with
    | none => simp
    | some j =>
      have hj := spaceIdx_lt_length s j h
      simpa using le_of_lt hj

/-- Claim C5: a buffer whose byte at offset 0 is the space byte yields an
empty view, regardless of the remaining bytes. -/
theorem claim_C5 (s : List Nat) (h : s.get? 0 = some spaceByte) :
    first_word s = [] ∧ first_word_view s = ⟨0, 0⟩ := by
  cases s with
  | nil => simp at h
  | cons b rest =>
    have hb : b = spaceByte := by simpa using h
    have hidx : spaceIdx (b :: rest) = some 0 := by simp [spaceIdx, hb]
    constructor
    · rw [first_word_eq, hidx]
      rfl
    · rw [first_word_view_eq, hidx]

/-- Witness for C5 on the buffer " ab". -/
theorem claim_C5_witness :
    ([32, 97, 98] : List Nat).get? 0 = some spaceByte ∧
    (first_word [32, 97, 98] = [] ∧ first_word_view [32, 97, 98] = ⟨0, 0⟩) :=
  ⟨by decide, claim_C5 [32, 97, 98] (by decide)⟩

/-- Claim C6: `first_word` is a pure read — with the buffer state passed
explicitly, the buffer comes back unchanged, and a second invocation on
the returned buffer yields the same view as the first. -/
theorem claim_C6 (s : List Nat) :
    (first_word_call s).2 = s ∧
    (first_word_call ((first_word_call s).2)).1 = (first_word_call s).1 :=
  ⟨rfl, rfl⟩

/-- Claim C7: the scan of `first_word` is bounded by a single linear pass —
the number of bytes its loop examines never exceeds the buffer's length
(termination itself is witnessed by `first_word` being a total
structural recursion). -/
theorem claim_C7 (s : List Nat) : first_word_cost s ≤ s.length := by
  induction s with
  | nil => exact Nat.le_refl 0
  | cons b rest ih =>
    simp only [first_word_cost, List.length_cons]
    by_cases hb : b = spaceByte
    · rw [if_pos hb]
      omega
    · rw [if_neg hb]
      omega

/-- Claim C9: the slicings `&s[0..i]` and `&s[..]` performed by
`first_word` never hit the out-of-bounds / non-char-boundary panic of Rust
string slicing: the checked embedding succeeds on every byte sequence (in
particular on every valid UTF-8 string) and agrees with the plain one —
the space byte 0x20 found at offset `i` is ASCII, so `i` is always a
character boundary. -/
theorem claim_C9 (s : List Nat) :
    first_word_checked s = some (first_word s) :=
  first_word_checked_eq s

/-- Claim C10: `first_word` is idempotent — its result contains no space
byte, so a second scan finds no delimiter and returns it whole. -/
theorem claim_C10 (s : List Nat) :
    first_word (first_word s) = first_word s := by
  have h := first_word_no_space s
  have hidx := (spaceIdx_eq_none_iff (first_word s)).mpr h
  rw [first_word_eq (first_word s), hidx]
